import Mathlib

/-!
Shallow embedding of the RBApy pre-model pipeline, translated from
`rba/prerba/sbml_data.py` and `rba/prerba/model_builder.py`.

Conventions of the embedding:
* Python strings are Lean `String`s; character-level operations go through
  `String.data : List Char`.
* Code that can raise an exception is modelled with `Option` (`none` is the
  raised exception) or `Except` where the kind of abort matters.
* Python `dict`/`set` values are modelled as lists with membership semantics,
  or as lookup functions, mirroring how the source consumes them.
-/

namespace RBApy

/-! ### Decimal rendering, embedding Python `str(n)` used for id suffixes -/

/-- Little-endian decimal digits of `n`; the first argument is fuel making the
recursion structural (the caller passes `n` itself, which is enough fuel). -/
def natDigitsAux : Nat → Nat → List Nat
  | 0, _ => []
  | _ + 1, 0 => []
  | fuel + 1, n + 1 => ((n + 1) % 10) :: natDigitsAux fuel ((n + 1) / 10)

/-- Little-endian decimal digits of `n` (empty for `0`). -/
def natDigits (n : Nat) : List Nat := natDigitsAux n n

/-- Value of a little-endian decimal digit list; inverse of `natDigits`. -/
def ofDecDigits : List Nat → Nat
  | [] => 0
  | d :: ds => d + 10 * ofDecDigits ds

theorem ofDecDigits_natDigitsAux : ∀ fuel n, n ≤ fuel →
    ofDecDigits (natDigitsAux fuel n) = n := by
  intro fuel
  induction fuel with
  | zero => intro n hn; interval_cases n; rfl
  | succ fuel ih =>
    intro n hn
    match n with
    | 0 => rfl
    | m + 1 =>
      have hdiv : (m + 1) / 10 ≤ fuel := by
        have := Nat.div_lt_self (Nat.succ_pos m) (by omega : 1 < 10)
        omega
      simp only [natDigitsAux, ofDecDigits, ih _ hdiv]
      omega

theorem ofDecDigits_natDigits (n : Nat) : ofDecDigits (natDigits n) = n :=
  ofDecDigits_natDigitsAux n n (Nat.le_refl n)

theorem natDigits_inj {a b : Nat} (h : natDigits a = natDigits b) : a = b := by
  have ha := ofDecDigits_natDigits a
  have hb := ofDecDigits_natDigits b
  rw [h] at ha
  omega

theorem natDigitsAux_lt_ten : ∀ fuel n d, d ∈ natDigitsAux fuel n → d < 10 := by
  intro fuel
  induction fuel with
  | zero => intro n d hd; simp [natDigitsAux] at hd
  | succ fuel ih =>
    intro n d hd
    match n with
    | 0 => simp [natDigitsAux] at hd
    | m + 1 =>
      simp only [natDigitsAux, List.mem_cons] at hd
      rcases hd with hd | hd
      · omega
      · exact ih _ _ hd

theorem natDigits_lt_ten {n d : Nat} (hd : d ∈ natDigits n) : d < 10 :=
  natDigitsAux_lt_ten n n d hd

/-- Character for one decimal digit (fallback for out-of-range input). -/
def decChar : Nat → Char
  | 0 => '0'
  | 1 => '1'
  | 2 => '2'
  | 3 => '3'
  | 4 => '4'
  | 5 => '5'
  | 6 => '6'
  | 7 => '7'
  | 8 => '8'
  | 9 => '9'
  | _ => '*'

theorem decChar_inj : ∀ d < 10, ∀ e < 10, decChar d = decChar e → d = e := by
  decide

theorem decChar_ne_underscore : ∀ d < 10, decChar d ≠ '_' := by
  decide

/-- Embedding of Python `str(n)` for a natural number. -/
def natRepr (n : Nat) : String :=
  if n = 0 then "0" else ⟨((natDigits n).reverse.map decChar)⟩

theorem map_decChar_inj : ∀ xs ys : List Nat, (∀ x ∈ xs, x < 10) →
    (∀ y ∈ ys, y < 10) → xs.map decChar = ys.map decChar → xs = ys := by
  intro xs
  induction xs with
  | nil => intro ys _ _ h; cases ys <;> simp_all
  | cons x xs ih =>
    intro ys hx hy h
    cases ys with
    | nil => simp at h
    | cons y ys =>
      simp only [List.map_cons, List.cons.injEq] at h
      have hxy : x = y :=
        decChar_inj x (hx x (by simp)) y (hy y (by simp)) h.1
      have := ih ys (fun a ha => hx a (by simp [ha]))
        (fun a ha => hy a (by simp [ha])) h.2
      simp [hxy, this]

theorem natRepr_data (n : Nat) :
    (natRepr n).data = if n = 0 then ['0'] else (natDigits n).reverse.map decChar := by
  unfold natRepr
  split <;> rfl

theorem reverse_natDigits_eq_zero {b : Nat} (h : (natDigits b).reverse = [0]) : b = 0 := by
  have hdig : natDigits b = [0] := by
    have := congrArg List.reverse h
    simpa using this
  have := ofDecDigits_natDigits b
  rw [hdig] at this
  simp [ofDecDigits] at this
  omega

theorem natRepr_inj {a b : Nat} (h : natRepr a = natRepr b) : a = b := by
  have hdata : (natRepr a).data = (natRepr b).data := congrArg String.data h
  rw [natRepr_data, natRepr_data] at hdata
  by_cases ha : a = 0 <;> by_cases hb : b = 0 <;> simp only [ha, hb, if_true, if_false,
    if_neg, if_pos, reduceIte] at hdata ⊢
  · -- a = 0, b ≠ 0 : "0" would have to be the digit string of b
    exfalso
    have : (List.replicate 1 0 : List Nat).map decChar = (natDigits b).reverse.map decChar := by
      simpa [decChar] using hdata
    have hrev : (List.replicate 1 (0 : Nat)) = (natDigits b).reverse := by
      apply map_decChar_inj _ _ _ _ this
      · intro x hx; simp at hx; omega
      · intro y hy; exact natDigits_lt_ten (List.mem_reverse.mp hy)
    exact hb (reverse_natDigits_eq_zero (by simpa using hrev.symm))
  · exfalso
    have : (natDigits a).reverse.map decChar = (List.replicate 1 0 : List Nat).map decChar := by
      simpa [decChar] using hdata
    have hrev : (natDigits a).reverse = (List.replicate 1 (0 : Nat)) := by
      apply map_decChar_inj _ _ _ _ this
      · intro x hx; exact natDigits_lt_ten (List.mem_reverse.mp hx)
      · intro y hy; simp at hy; omega
    exact ha (reverse_natDigits_eq_zero (by simpa using hrev))
  · have hrev : (natDigits a).reverse = (natDigits b).reverse := by
      apply map_decChar_inj _ _ _ _ hdata
      · intro x hx; exact natDigits_lt_ten (List.mem_reverse.mp hx)
      · intro y hy; exact natDigits_lt_ten (List.mem_reverse.mp hy)
    have : natDigits a = natDigits b := by
      have := congrArg List.reverse hrev
      simpa using this
    exact natDigits_inj this

theorem natRepr_no_underscore (n : Nat) : '_' ∉ (natRepr n).data := by
  rw [natRepr_data]
  split
  · decide
  · intro hmem
    simp only [List.mem_map] at hmem
    obtain ⟨d, hd, hchar⟩ := hmem
    exact decChar_ne_underscore d (natDigits_lt_ten (List.mem_reverse.mp hd)) hchar

/-! ### Embedding of the Python string methods used by `sbml_data.py` -/

theorem string_data_append (a b : String) : (a ++ b).data = a.data ++ b.data := rfl

theorem string_eq_of_data {a b : String} (h : a.data = b.data) : a = b := by
  cases a; cases b; exact congrArg String.mk h

/-- Embedding of `metabolite_id.rsplit(sep, 1)` for `sep = '_'`: the first
component is the text before the last underscore (the whole string when there
is none), the second the text after it (`none` when there is none, which the
callers turn into an `IndexError`). -/
def rsplitU (s : String) : String × Option String :=
  match s.data.reverse.dropWhile (fun c => c != '_') with
  | [] => (s, none)
  | _ :: prefRev =>
    (⟨prefRev.reverse⟩, some ⟨(s.data.reverse.takeWhile (fun c => c != '_')).reverse⟩)

theorem rsplitU_snd_eq_none_iff (s : String) :
    (rsplitU s).2 = none ↔ '_' ∉ s.data := by
  unfold rsplitU
  rcases hdrop : s.data.reverse.dropWhile (fun c => c != '_') with _ | ⟨c, rest⟩
  · rw [List.dropWhile_eq_nil_iff] at hdrop
    constructor
    · intro _ hmem
      have := hdrop '_' (List.mem_reverse.mpr hmem)
      simp at this
    · intro _; rfl
  · constructor
    · intro h; exact Option.noConfusion h
    · intro hnm
      exfalso
      have hnil : s.data.reverse.dropWhile (fun c => c != '_') = [] := by
        rw [List.dropWhile_eq_nil_iff]
        intro y hy
        have hne : y ≠ '_' := fun he => hnm (he ▸ List.mem_reverse.mp hy)
        simpa using hne
      rw [hnil] at hdrop
      simp at hdrop

theorem dropWhile_append_of_all {p : Char → Bool} {a : List Char}
    (ha : ∀ y ∈ a, p y = true) (b : List Char) :
    List.dropWhile p (a ++ b) = List.dropWhile p b := by
  induction a with
  | nil => rfl
  | cons x a ih =>
    simp only [List.cons_append, List.dropWhile_cons, ha x (by simp)]
    exact ih (fun y hy => ha y (by simp [hy]))

theorem takeWhile_append_of_all {p : Char → Bool} {a : List Char}
    (ha : ∀ y ∈ a, p y = true) (b : List Char) :
    List.takeWhile p (a ++ b) = a ++ List.takeWhile p b := by
  induction a with
  | nil => rfl
  | cons x a ih =>
    have hx : p x = true := ha x (by simp)
    have ih' := ih (fun y hy => ha y (by simp [hy]))
    simp [List.takeWhile_cons, hx, ih']

/-- Computation rule for `rsplitU` on a string of the shape `pre_suf` where
`suf` has no underscore. -/
theorem rsplitU_eq {pre suf : List Char} (hsuf : '_' ∉ suf) :
    rsplitU ⟨pre ++ '_' :: suf⟩ = (⟨pre⟩, some ⟨suf⟩) := by
  have hall : ∀ y ∈ suf.reverse, (y != '_') = true := by
    intro y hy
    have : y ≠ '_' := fun h => hsuf (h ▸ List.mem_reverse.mp hy)
    simpa using this
  have hrev : (pre ++ '_' :: suf).reverse = suf.reverse ++ '_' :: pre.reverse := by
    simp
  unfold rsplitU
  simp only [hrev]
  rw [dropWhile_append_of_all hall, takeWhile_append_of_all hall]
  simp [List.dropWhile_cons, List.takeWhile_cons]

/-- Uniqueness of splitting at the first occurrence of an element. -/
theorem split_first_not_mem {x : Char} :
    ∀ {a c b d : List Char}, x ∉ a → x ∉ c → a ++ x :: b = c ++ x :: d →
      a = c ∧ b = d := by
  intro a
  induction a with
  | nil =>
    intro c b d _ hc h
    cases c with
    | nil => simpa using h
    | cons z c =>
      simp only [List.nil_append, List.cons_append, List.cons.injEq] at h
      exact absurd (h.1 ▸ List.mem_cons_self z c) hc
  | cons y a ih =>
    intro c b d ha hc h
    cases c with
    | nil =>
      simp only [List.cons_append, List.nil_append, List.cons.injEq] at h
      exact absurd (h.1 ▸ List.mem_cons_self y a) ha
    | cons z c =>
      simp only [List.cons_append, List.cons.injEq] at h
      obtain ⟨rfl, h2⟩ := h
      have := ih (fun hm => ha (List.mem_cons_of_mem _ hm))
        (fun hm => hc (List.mem_cons_of_mem _ hm)) h2
      exact ⟨by simp [this.1], this.2⟩

/-- Uniqueness of splitting at the last occurrence of an element. -/
theorem split_last_not_mem {p q r s : List Char} (hr : '_' ∉ r) (hs : '_' ∉ s)
    (h : p ++ '_' :: r = q ++ '_' :: s) : p = q ∧ r = s := by
  have hrev : r.reverse ++ '_' :: p.reverse = s.reverse ++ '_' :: q.reverse := by
    have := congrArg List.reverse h
    simpa using this
  have hr' : '_' ∉ r.reverse := fun hm => hr (List.mem_reverse.mp hm)
  have hs' : '_' ∉ s.reverse := fun hm => hs (List.mem_reverse.mp hm)
  obtain ⟨h1, h2⟩ := split_first_not_mem hr' hs' hrev
  constructor
  · have := congrArg List.reverse h2; simpa using this
  · have := congrArg List.reverse h1; simpa using this

/-- Injectivity of the id scheme `base ++ "_" ++ str(i)` used for expanded
reaction clones. -/
theorem cloneId_append_inj {s t : String} {i j : Nat}
    (h : s ++ "_" ++ natRepr i = t ++ "_" ++ natRepr j) : s = t ∧ i = j := by
  have hdata : s.data ++ '_' :: (natRepr i).data = t.data ++ '_' :: (natRepr j).data := by
    have := congrArg String.data h
    simpa [string_data_append, List.append_assoc] using this
  obtain ⟨h1, h2⟩ := split_last_not_mem (natRepr_no_underscore i) (natRepr_no_underscore j) hdata
  exact ⟨string_eq_of_data h1, natRepr_inj (string_eq_of_data h2)⟩

/-- A base id is never equal to one of its own suffixed clone ids. -/
theorem base_ne_cloneId (s : String) (i : Nat) : s ≠ s ++ "_" ++ natRepr i := by
  intro h
  have hd : s.data = s.data ++ '_' :: (natRepr i).data := by
    have hda := congrArg String.data h
    simp only [string_data_append, List.append_assoc] at hda
    exact hda
  have hlen := congrArg List.length hd
  simp only [List.length_append, List.length_cons] at hlen
  omega

/-! ### Data model: the document tree handed back by the SBML reader -/

/-- One reactant or product entry `(species id, stoichiometry)`. -/
structure SpeciesRef where
  species : String
  stoichiometry : Int
deriving DecidableEq

/-- An SBML species as read from the document. -/
structure SbmlSpecies where
  id : String
  compartment : String
  boundary_condition : Bool
deriving DecidableEq

/-- An SBML reaction; also the shape of `rba.xml.Reaction` built by
`SbmlData._extract_reactions` (id, reversibility, reactant and product
lists are copied field by field). -/
structure SbmlReaction where
  id : String
  reversible : Bool
  reactants : List SpeciesRef
  products : List SpeciesRef
deriving DecidableEq

/-- Output species entry (`rba.xml.Species`). -/
structure Species where
  id : String
  boundary : Bool
deriving DecidableEq

/-- The parts of the parsed SBML model consumed by the compartment and
species logic of `SbmlData`. -/
structure SbmlModel where
  compartments : List String
  species : List SbmlSpecies
  reactions : List SbmlReaction

/-! ### Compartment classification (`sbml_data.py` lines 66-96) -/

/-- `SbmlData._sink_species`: species that are the single participant of a
reaction with exactly one reactant and no products, or exactly one product
and no reactants.  (Python wraps the list in `set`; only membership is ever
used, so the list with membership semantics embeds it.) -/
def sinkSpecies (reactions : List SbmlReaction) : List String :=
  reactions.filterMap (fun r =>
    match r.reactants, r.products with
    | [x], [] => some x.species
    | [], [y] => some y.species
    | _, _ => none)

/-- `SbmlData._identify_external_compartments`: start from all compartment
ids and discard the compartment of every metabolite that is not a sink
species.  (`set.discard` removes every occurrence, embedded by `filter`.) -/
def identifyExternalCompartments (model : SbmlModel) : List String :=
  let sink := sinkSpecies model.reactions
  model.species.foldl
    (fun result m =>
      if m.id ∈ sink then result else result.filter (fun c => c != m.compartment))
    model.compartments

/-- The effective external-compartment set of `SbmlData._initialize_species`:
the caller-supplied override list (defaulted to `[]` when absent) extended
with the topology-derived set (`external_ids += ...`). -/
def externalCompartmentIds (model : SbmlModel) (externalIds : Option (List String)) :
    List String :=
  externalIds.getD [] ++ identifyExternalCompartments model

/-- `SbmlData._initialize_species`: each species keeps its SBML boundary
flag, upgraded to `true` when its compartment is external. -/
def initializeSpecies (model : SbmlModel) (externalIds : Option (List String)) :
    List Species :=
  let ext := externalCompartmentIds model externalIds
  model.species.map (fun s => ⟨s.id, s.boundary_condition || decide (s.compartment ∈ ext)⟩)

/-- `self.external_metabolites`: ids of the output species whose boundary
flag ended up `true`. -/
def externalMetabolites (species : List Species) : List String :=
  (species.filter (fun m => m.boundary)).map (fun m => m.id)

/-- Membership characterization of the discard fold in
`_identify_external_compartments`. -/
theorem foldl_discard_mem (sink : List String) :
    ∀ (species : List SbmlSpecies) (init : List String) (c : String),
      (c ∈ species.foldl
        (fun result m =>
          if m.id ∈ sink then result else result.filter (fun c' => c' != m.compartment))
        init)
      ↔ c ∈ init ∧ ∀ m ∈ species, m.id ∈ sink ∨ m.compartment ≠ c := by
  intro species
  induction species with
  | nil => intro init c; simp
  | cons m rest ih =>
    intro init c
    simp only [List.foldl_cons, ih, List.mem_cons]
    by_cases hm : m.id ∈ sink
    · simp only [if_pos hm]
      constructor
      · rintro ⟨h1, h2⟩
        exact ⟨h1, fun m' hm' => by
          rcases hm' with rfl | hm'
          · exact Or.inl hm
          · exact h2 m' hm'⟩
      · rintro ⟨h1, h2⟩
        exact ⟨h1, fun m' hm' => h2 m' (Or.inr hm')⟩
    · simp only [if_neg hm, List.mem_filter]
      constructor
      · rintro ⟨⟨h1, hne⟩, h2⟩
        refine ⟨h1, fun m' hm' => ?_⟩
        rcases hm' with rfl | hm'
        · right
          intro hc
          rw [hc] at hne
          simp at hne
        · exact h2 m' hm'
      · rintro ⟨h1, h2⟩
        refine ⟨⟨h1, ?_⟩, fun m' hm' => h2 m' (Or.inr hm')⟩
        rcases h2 m (Or.inl rfl) with h | h
        · exact absurd h hm
        · simpa using fun hc => h hc.symm

theorem mem_identifyExternalCompartments (model : SbmlModel) (c : String) :
    c ∈ identifyExternalCompartments model ↔
      c ∈ model.compartments ∧
        ∀ m ∈ model.species, m.compartment = c → m.id ∈ sinkSpecies model.reactions := by
  unfold identifyExternalCompartments
  rw [foldl_discard_mem]
  constructor
  · rintro ⟨h1, h2⟩
    refine ⟨h1, fun m hm hc => ?_⟩
    rcases h2 m hm with h | h
    · exact h
    · exact absurd hc h
  · rintro ⟨h1, h2⟩
    refine ⟨h1, fun m hm => ?_⟩
    by_cases hc : m.compartment = c
    · exact Or.inl (h2 m hm hc)
    · exact Or.inr hc

/-- Membership characterization of `_sink_species`. -/
theorem mem_sinkSpecies (reactions : List SbmlReaction) (sid : String) :
    sid ∈ sinkSpecies reactions ↔
      ∃ r ∈ reactions,
        (∃ x, r.reactants = [x] ∧ r.products = [] ∧ x.species = sid) ∨
        (∃ y, r.reactants = [] ∧ r.products = [y] ∧ y.species = sid) := by
  unfold sinkSpecies
  rw [List.mem_filterMap]
  constructor
  · rintro ⟨r, hr, hf⟩
    refine ⟨r, hr, ?_⟩
    rcases hra : r.reactants with _ | ⟨x, xs⟩ <;> rcases hpr : r.products with _ | ⟨y, ys⟩ <;>
      rw [hra, hpr] at hf
    · simp at hf
    · cases ys with
      | nil =>
        right
        refine ⟨y, rfl, rfl, ?_⟩
        have hy : some y.species = some sid := hf
        exact Option.some.inj hy
      | cons z zs => simp at hf
    · cases xs with
      | nil =>
        left
        refine ⟨x, rfl, rfl, ?_⟩
        have hx : some x.species = some sid := hf
        exact Option.some.inj hx
      | cons z zs => simp at hf
    · cases xs with
      | nil => simp at hf
      | cons z zs => simp at hf
  · rintro ⟨r, hr, hcase⟩
    refine ⟨r, hr, ?_⟩
    rcases hcase with ⟨x, hra, hpr, hx⟩ | ⟨y, hra, hpr, hy⟩
    · rw [hra, hpr]; simpa using hx
    · rw [hra, hpr]; simpa using hy

/-! ### Gene associations: the fbc annotation parser (`sbml_data.py` 199-245) -/

/-- A libsbml fbc association node: `GeneProductRef`, `FbcAnd` or `FbcOr`
(the only association kinds libsbml's fbc plugin produces), the operators
with a list of child associations. -/
inductive Association where
  | ref (gene : String)
  | fbcAnd (cs : List Association)
  | fbcOr (cs : List Association)

/-- `FbcAnnotationParser._read_fbc_association_components`: flattens an
and-tree into its list of gene names; any `FbcOr` at this level falls into
the `else` branch, which raises `UserWarning` (modelled by `none`).
The `_gene_names` dict is modelled as the total id-to-name map `names`. -/
def readComponents (names : String → String) : Association → Option (List String)
  | .ref g => some [names g]
  | .fbcOr _ => none
  | .fbcAnd [] => some []
  | .fbcAnd (a :: rest) =>
    match readComponents names a, readComponents names (.fbcAnd rest) with
    | some x, some y => some (x ++ y)
    | _, _ => none

/-- The list comprehension of `_read_fbc_association` over the children of a
top-level `FbcOr`; an exception in any child aborts the whole list. -/
def readClausesList (names : String → String) : List Association → Option (List (List String))
  | [] => some []
  | a :: rest =>
    match readComponents names a, readClausesList names rest with
    | some c, some cs => some (c :: cs)
    | _, _ => none

/-- `FbcAnnotationParser._read_fbc_association`. -/
def readFbcAssociation (names : String → String) (association : Association) :
    Option (List (List String)) :=
  match association with
  | .fbcOr cs => readClausesList names cs
  | a => (readComponents names a).map (fun x => [x])

/-- `FbcAnnotationParser._enzyme_composition`: a reaction without a
gene-product association yields the single unspecified composition `[[]]`. -/
def enzymeComposition (names : String → String) (gpAssociation : Option Association) :
    Option (List (List String)) :=
  match gpAssociation with
  | some a => readFbcAssociation names a
  | none => some [[]]

/-- `FbcAnnotationParser.parse_enzymes` when the fbc plugin is present: one
composition list per reaction, an exception anywhere aborting the list. -/
def parseEnzymesList (names : String → String) (assocs : List (Option Association)) :
    Option (List (List (List String))) :=
  match assocs with
  | [] => some []
  | a :: rest =>
    match enzymeComposition names a, parseEnzymesList names rest with
    | some c, some cs => some (c :: cs)
    | _, _ => none

/-! ### Boolean semantics of association trees -/

/-- Truth value of an association tree once each leaf gene id has been
resolved through the name map; `env` assigns truth values to gene names. -/
def evalAssoc (env : String → Bool) : Association → Bool
  | .ref g => env g
  | .fbcAnd [] => true
  | .fbcAnd (a :: rest) => evalAssoc env a && evalAssoc env (.fbcAnd rest)
  | .fbcOr [] => false
  | .fbcOr (a :: rest) => evalAssoc env a || evalAssoc env (.fbcOr rest)

/-- Truth value of one composition clause (a conjunction of gene names). -/
def evalClause (env : String → Bool) (c : List String) : Bool := c.all env

/-- Truth value of a clause list re-interpreted as an Or-of-Ands. -/
def evalClauses (env : String → Bool) (cs : List (List String)) : Bool :=
  cs.any (evalClause env)

/-- Trees built from `And` and `Leaf` only. -/
def andTree : Association → Bool
  | .ref _ => true
  | .fbcOr _ => false
  | .fbcAnd [] => true
  | .fbcAnd (a :: rest) => andTree a && andTree (.fbcAnd rest)

/-- Or-of-Ands shape: an `Or` node may appear only as the root. -/
def orOfAnds : Association → Bool
  | .fbcOr cs => cs.all andTree
  | a => andTree a

theorem readComponents_eval (names : String → String) (env : String → Bool) :
    ∀ a genes, readComponents names a = some genes →
      evalClause env genes = evalAssoc (fun g => env (names g)) a := by
  intro a
  induction a using readComponents.induct names with
  | case1 g =>
    intro genes h
    simp only [readComponents, Option.some.injEq] at h
    subst h
    simp [evalClause, evalAssoc]
  | case2 cs =>
    intro genes h
    simp [readComponents] at h
  | case3 =>
    intro genes h
    simp only [readComponents, Option.some.injEq] at h
    subst h
    simp [evalClause, evalAssoc]
  | case4 a rest x y hy hx ih_a ih_rest =>
    intro genes h
    simp only [readComponents, hx, hy, Option.some.injEq] at h
    subst h
    simp only [evalClause, List.all_append, evalAssoc]
    rw [← ih_a x hx, ← ih_rest y hy]
    rfl
  | case5 a rest hfail ih_a ih_rest =>
    intro genes h
    simp only [readComponents] at h
    exact Option.noConfusion h

theorem readComponents_isSome (names : String → String) :
    ∀ a, (readComponents names a).isSome = andTree a := by
  intro a
  induction a using readComponents.induct names with
  | case1 g => simp [readComponents, andTree]
  | case2 cs => simp [readComponents, andTree]
  | case3 => simp [readComponents, andTree]
  | case4 a rest x y hy hx ih_a ih_rest =>
    simp only [readComponents, hx, hy, andTree]
    rw [← ih_a, ← ih_rest, hx, hy]
    rfl
  | case5 a rest hfail ih_a ih_rest =>
    simp only [readComponents, andTree, Option.isSome_none]
    rcases ha : readComponents names a with _ | x
    · rw [ha] at ih_a
      simp [← ih_a]
    · rcases hrest : readComponents names (.fbcAnd rest) with _ | y
      · rw [ha] at ih_a
        rw [hrest] at ih_rest
        simp [← ih_a, ← ih_rest]
      · exact (hfail x y ha hrest).elim

theorem readClausesList_eval (names : String → String) (env : String → Bool) :
    ∀ cs clauses, readClausesList names cs = some clauses →
      evalClauses env clauses = evalAssoc (fun g => env (names g)) (.fbcOr cs) := by
  intro cs
  induction cs with
  | nil =>
    intro clauses h
    simp only [readClausesList, Option.some.injEq] at h
    subst h
    simp [evalClauses, evalAssoc]
  | cons a rest ih =>
    intro clauses h
    simp only [readClausesList] at h
    rcases ha : readComponents names a with _ | c <;> rw [ha] at h
    · simp at h
    rcases hrest : readClausesList names rest with _ | cls <;> rw [hrest] at h
    · simp at h
    simp only [Option.some.injEq] at h
    subst h
    simp only [evalClauses, List.any_cons, evalAssoc]
    rw [← readComponents_eval names env a c ha, ← ih cls hrest]
    rfl

theorem readClausesList_isSome (names : String → String) :
    ∀ cs, (readClausesList names cs).isSome = cs.all andTree := by
  intro cs
  induction cs with
  | nil => simp [readClausesList]
  | cons a rest ih =>
    simp only [readClausesList, List.all_cons]
    rcases ha : readComponents names a with _ | c
    · have := readComponents_isSome names a
      rw [ha] at this
      simp [← this]
    rcases hrest : readClausesList names rest with _ | cls
    · rw [hrest] at ih
      have h2 := readComponents_isSome names a
      rw [ha] at h2
      simp [← ih, ← h2]
    · rw [hrest] at ih
      have h2 := readComponents_isSome names a
      rw [ha] at h2
      simp [← ih, ← h2]

/-- On success, `_read_fbc_association` returns a clause list equivalent,
as an Or-of-Ands, to the input association tree. -/
theorem readFbcAssociation_eval (names : String → String) (env : String → Bool)
    (a : Association) (clauses : List (List String))
    (h : readFbcAssociation names a = some clauses) :
    evalClauses env clauses = evalAssoc (fun g => env (names g)) a := by
  match a with
  | .fbcOr cs => exact readClausesList_eval names env cs clauses h
  | .ref g =>
    have h' : (readComponents names (.ref g)).map (fun x => [x]) = some clauses := h
    rcases hr : readComponents names (.ref g) with _ | x <;> rw [hr] at h'
    · simp at h'
    · have h2 : [x] = clauses := Option.some.inj h'
      subst h2
      simp only [evalClauses, List.any_cons, List.any_nil, Bool.or_false]
      exact readComponents_eval names env _ x hr
  | .fbcAnd cs =>
    have h' : (readComponents names (.fbcAnd cs)).map (fun x => [x]) = some clauses := h
    rcases hr : readComponents names (.fbcAnd cs) with _ | x <;> rw [hr] at h'
    · simp at h'
    · have h2 : [x] = clauses := Option.some.inj h'
      subst h2
      simp only [evalClauses, List.any_cons, List.any_nil, Bool.or_false]
      exact readComponents_eval names env _ x hr

/-- `_read_fbc_association` succeeds exactly on Or-of-Ands trees. -/
theorem readFbcAssociation_isSome (names : String → String) (a : Association) :
    (readFbcAssociation names a).isSome = orOfAnds a := by
  match a with
  | .fbcOr cs =>
    simpa [readFbcAssociation, orOfAnds] using readClausesList_isSome names cs
  | .ref g =>
    have h1 : readFbcAssociation names (.ref g) =
        (readComponents names (.ref g)).map (fun x => [x]) := rfl
    have h2 : orOfAnds (.ref g) = andTree (.ref g) := rfl
    rw [h1, h2, ← readComponents_isSome names (.ref g)]
    rcases readComponents names (.ref g) with _ | x <;> rfl
  | .fbcAnd cs =>
    have h1 : readFbcAssociation names (.fbcAnd cs) =
        (readComponents names (.fbcAnd cs)).map (fun x => [x]) := rfl
    have h2 : orOfAnds (.fbcAnd cs) = andTree (.fbcAnd cs) := rfl
    rw [h1, h2, ← readComponents_isSome names (.fbcAnd cs)]
    rcases readComponents names (.fbcAnd cs) with _ | x <;> rfl

/-! ### The COBRA note parser (`sbml_data.py` 248-297) -/

/-- Python `text.split(sep, 1)`: the part before the first occurrence of
`sep` and, when `sep` occurs, the part after it (`none` otherwise, i.e. the
result has a single element). -/
def splitFirst (sep : Char) : List Char → List Char × Option (List Char)
  | [] => ([], none)
  | c :: rest =>
    if c = sep then ([], some rest)
    else
      let p := splitFirst sep rest
      (c :: p.1, p.2)

/-- Python `str.split(sep)` for a separator string: split at leftmost,
non-overlapping occurrences.  (The `sep ≠ []` guard only serves termination;
every call site passes a non-empty separator, as Python requires.) -/
def splitOnSep (sep : List Char) : List Char → List (List Char)
  | [] => [[]]
  | c :: rest =>
    if sep.isPrefixOf (c :: rest) ∧ sep ≠ [] then
      [] :: splitOnSep sep (List.drop (sep.length - 1) rest)
    else
      match splitOnSep sep rest with
      | [] => [[c]]
      | x :: xs => (c :: x) :: xs
termination_by l => l.length
decreasing_by
  · simp only [List.length_drop, List.length_cons]
    omega
  · simp only [List.length_cons]
    omega

/-- `CobraNoteParser._remove_parentheses`. -/
def removeParentheses (s : List Char) : List Char :=
  s.filter (fun c => c != '(' && c != ')')

/-- Python `str.strip()`. -/
def pyStrip (s : List Char) : List Char :=
  ((s.dropWhile Char.isWhitespace).reverse.dropWhile Char.isWhitespace).reverse

/-- `CobraNoteParser._enzyme_composition`: split on `" and "` and strip each
gene name. -/
def noteEnzymeComposition (enzyme : List Char) : List String :=
  (splitOnSep " and ".data enzyme).map (fun g => ⟨pyStrip g⟩)

/-- `CobraNoteParser._parse_gene_association`.  Outer `none` models the
`IndexError` on `tags[1]` (reachable when the text is exactly
`GENE_ASSOCIATION` with no colon); inner `none` models `return None`.
The `and` in `len(tags) != 2 and tags[0] != "GENE_ASSOCIATION"` is kept as
written, so a two-element split is parsed whatever its tag. -/
def parseGeneAssociation (text : List Char) : Option (Option (List (List String))) :=
  let tags := splitFirst ':' text
  match tags.2 with
  | none =>
    if tags.1 ≠ "GENE_ASSOCIATION".data then some none
    else none
  | some t1 =>
    let desc := removeParentheses t1
    if desc = [] then some (some [])
    else some (some ((splitOnSep " or ".data desc).map noteEnzymeComposition))

/-- `CobraNoteParser._gene_associations`: the method builds a generator whose
outer iterable is `range(notes.getNumChildren())`, but the name `notes` is
undefined in that scope (the parameter is called `note`), so every call
raises `NameError` while creating the generator, before yielding anything;
`none` models that crash.  The note itself is the text of the XML children
it would have iterated over. -/
def geneAssociations (_note : List String) : Option (List (List Char)) := none

/-- The collection loop of `CobraNoteParser._parse_note`: falsy parse results
(`None` or `[]`) are skipped, truthy ones appended. -/
def parseNoteLoop : List (List Char) → Option (List (List (List String)))
  | [] => some []
  | ga :: rest =>
    match parseGeneAssociation ga with
    | none => none
    | some comp =>
      (parseNoteLoop rest).map (fun acc =>
        match comp with
        | none => acc
        | some [] => acc
        | some c => c :: acc)

/-- `CobraNoteParser._parse_note` (in this code unreachable past the first
step: `_gene_associations` always raises). -/
def parseNote (note : List String) : Option (List (List (List String))) :=
  match geneAssociations note with
  | none => none
  | some gas => parseNoteLoop gas

/-- The association-relevant view of one SBML reaction: the optional fbc
gene-product association and the optional notes element (`none` models a
falsy `reaction.notes`). -/
structure AnnotatedReaction where
  gpAssociation : Option Association
  notes : Option (List String)

/-- The loop of `CobraNoteParser.read_notes`: a reaction without notes makes
the whole call return `[]`; otherwise each parsed note is accumulated. -/
def readNotesGo (acc : List (List (List (List String)))) :
    List AnnotatedReaction → Option (List (List (List (List String))))
  | [] => some acc.reverse
  | r :: rest =>
    match r.notes with
    | none => some []
    | some note =>
      match parseNote note with
      | none => none
      | some comp => readNotesGo (comp :: acc) rest

/-- `CobraNoteParser.read_notes`. -/
def readNotes (reactions : List AnnotatedReaction) :
    Option (List (List (List (List String)))) :=
  readNotesGo [] reactions

/-! ### Strategy selection (`sbml_data.py` 98-108) -/

/-- The association-relevant view of the parsed model: the fbc plugin (when
present it carries the gene-product id-to-name map) and the reactions. -/
structure AnnotatedModel where
  fbc : Option (String → String)
  reactions : List AnnotatedReaction

/-- `FbcAnnotationParser.parse_enzymes`: `[]` when the fbc plugin is absent,
otherwise one composition list per reaction. -/
def parseEnzymes (model : AnnotatedModel) : Option (List (List (List String))) :=
  match model.fbc with
  | none => some []
  | some names => parseEnzymesList names (model.reactions.map (fun r => r.gpAssociation))

/-- The ways `_extract_enzyme_composition` and its callees abort the build. -/
inductive ExtractError where
  | unsupportedShape
  | noteNameError
  | missingAssociationData
deriving DecidableEq

/-- `SbmlData._extract_enzyme_composition`: try the fbc strategy; when it
returns an empty (falsy) result, fall back to COBRA notes; when that is
also empty, raise (`missingAnnotation`). -/
def extractEnzymeComposition (model : AnnotatedModel) :
    Except ExtractError (List (List (List String)) ⊕ List (List (List (List String)))) :=
  match parseEnzymes model with
  | none => .error .unsupportedShape
  | some result =>
    if result ≠ [] then .ok (.inl result)
    else
      match readNotes model.reactions with
      | none => .error .noteNameError
      | some result2 =>
        if result2 ≠ [] then .ok (.inr result2)
        else .error .missingAssociationData

/-! ### Reaction expansion (`sbml_data.py` 127-140) -/

/-- The inner loop of `SbmlData._duplicate_reactions_with_multiple_enzymes`
for one reaction: the counter starts at the given value, is incremented
before each clone, and a clone for counter value `s > 1` gets id
`id ++ "_" ++ str(s)`.  (`copy.copy` clones the reaction object; the only
field subsequently modified is `id`.) -/
def cloneLoop {E : Type} (r : SbmlReaction) : Nat → List E → List (SbmlReaction × E)
  | _, [] => []
  | sfx, e :: rest =>
    let s := sfx + 1
    let clone := if s > 1 then { r with id := r.id ++ "_" ++ natRepr s } else r
    (clone, e) :: cloneLoop r s rest

/-- `SbmlData._duplicate_reactions_with_multiple_enzymes`: zip the reactions
with their composition lists (`zip` stops at the shorter list, as in Python)
and emit one clone per enzyme entry. -/
def duplicateReactions {E : Type} (reactions : List SbmlReaction)
    (enzymeComp : List (List E)) : List (SbmlReaction × E) :=
  (reactions.zip enzymeComp).flatMap (fun p => cloneLoop p.1 0 p.2)

/-- Closed form of the id a clone receives for (1-based) counter value `s`. -/
def cloneIdAt (r : SbmlReaction) (s : Nat) : String :=
  if s > 1 then r.id ++ "_" ++ natRepr s else r.id

theorem cloneLoop_length {E : Type} (r : SbmlReaction) :
    ∀ (comps : List E) (n : Nat), (cloneLoop r n comps).length = comps.length := by
  intro comps
  induction comps with
  | nil => intro n; rfl
  | cons e rest ih => intro n; simp [cloneLoop, ih]

theorem cloneLoop_getElem {E : Type} (r : SbmlReaction) :
    ∀ (comps : List E) (n i : Nat),
      (cloneLoop r n comps)[i]? =
        comps[i]?.map (fun e => ({ r with id := cloneIdAt r (n + 1 + i) }, e)) := by
  intro comps
  induction comps with
  | nil => intro n i; simp [cloneLoop]
  | cons e rest ih =>
    intro n i
    match i with
    | 0 =>
      simp only [cloneLoop, List.getElem?_cons_zero]
      unfold cloneIdAt
      by_cases h : n + 1 > 1
      · simp only [if_pos h, Nat.add_zero]
        rfl
      · simp only [if_neg h, Nat.add_zero]
        rfl
    | i + 1 =>
      simp only [cloneLoop, List.getElem?_cons_succ]
      rw [ih (n + 1) i]
      have : n + 1 + 1 + i = n + 1 + (i + 1) := by omega
      rw [this]

theorem cloneLoop_map_id {E : Type} (r : SbmlReaction) :
    ∀ (comps : List E) (n : Nat),
      (cloneLoop r n comps).map (fun p => p.1.id) =
        (List.range comps.length).map (fun i => cloneIdAt r (n + 1 + i)) := by
  intro comps
  induction comps with
  | nil => intro n; rfl
  | cons e rest ih =>
    intro n
    simp only [cloneLoop, List.map_cons, List.length_cons, List.range_succ_eq_map,
      List.map_map]
    congr 1
    · unfold cloneIdAt
      split <;> rfl
    · rw [ih (n + 1)]
      apply List.map_congr_left
      intro i _
      simp only [Function.comp_apply]
      congr 1
      omega

/-! ### Transport resolution (`sbml_data.py` 142-196) -/

/-- `SbmlData._prefix`: `rsplit('_', 1)[0]`, the id with its compartment
suffix stripped (the whole id when there is no underscore). -/
def idStem (metaboliteId : String) : String := (rsplitU metaboliteId).1

/-- `SbmlData._suffix`: `rsplit('_', 1)[1]`; indexing `[1]` raises
`IndexError` (`none`) when the id contains no underscore. -/
def idCpt (metaboliteId : String) : Option String := (rsplitU metaboliteId).2

/-- All participant species ids of a reaction
(`itertools.chain(reaction.reactants, reaction.products)`). -/
def participantSpecies (r : SbmlReaction) : List String :=
  (r.reactants ++ r.products).map (fun m => m.species)

/-- The compartment list built by the comprehension in
`_has_membrane_enzyme`; it evaluates `_suffix` for every participant before
`any` runs, so a single id without underscore poisons the whole call. -/
def participantCpts : List String → Option (List String)
  | [] => some []
  | s :: rest =>
    match idCpt s, participantCpts rest with
    | some c, some cs => some (c :: cs)
    | _, _ => none

/-- `SbmlData._has_membrane_enzyme`: true iff some participant's compartment
suffix differs from the first participant's (`any` over `compartments[1:]`
never touches `compartments[0]` when the list is empty). -/
def hasMembraneEnzyme (r : SbmlReaction) : Option Bool :=
  (participantCpts (participantSpecies r)).map (fun cpts =>
    match cpts with
    | [] => false
    | c0 :: rest => rest.any (fun c => c != c0))

/-- `SbmlData._has_cytosolic_product`: Python `any` over a generator is
lazy, so a product id without underscore only raises when no earlier
product already matched the cytosol id. -/
def hasCytosolicProduct (products : List SpeciesRef) (cytosolId : String) : Option Bool :=
  match products with
  | [] => some false
  | p :: rest =>
    match idCpt p.species with
    | none => none
    | some c => if c = cytosolId then some true else hasCytosolicProduct rest cytosolId

/-- `SbmlData._noncytosolic_external_reactants`: keep each reactant whose
compartment suffix differs from the cytosol id and whose stem is among the
external-metabolite stems; unpacking `rsplit('_', 1)` into two variables
raises (`none`) on an id without underscore. -/
def noncytosolicExternalReactants (cytosolId : String) (externalStems : List String) :
    List SpeciesRef → Option (List String)
  | [] => some []
  | m :: rest =>
    match rsplitU m.species with
    | (_, none) => none
    | (stem, some cpt) =>
      (noncytosolicExternalReactants cytosolId externalStems rest).map (fun tail =>
        if cpt ≠ cytosolId ∧ stem ∈ externalStems then m.species :: tail else tail)

/-- `SbmlData._imported_metabolites`. -/
def importedMetabolites (r : SbmlReaction) (cytosolId : String)
    (externalStems : List String) : Option (List String) :=
  match hasCytosolicProduct r.products cytosolId with
  | none => none
  | some true => noncytosolicExternalReactants cytosolId externalStems r.reactants
  | some false => some []

/-- The `external_prefixes` set of `SbmlData._initialize_enzymes`: the stems
of all boundary species ids. -/
def externalStemsOf (species : List Species) : List String :=
  (externalMetabolites species).map (fun m => (rsplitU m).1)

/-! ### `model_builder.py`: metabolism reaction ids and enzyme machinery -/

/-- The reaction-id list of the metabolism sub-model built by
`ModelBuilder.build_metabolism`: the (already expanded) SBML reactions
copied over, followed by the appended maintenance-ATP reaction
(`self.default.atpm_reaction`). -/
def metabolismReactionIds {E : Type} (atpmId : String) (reactions : List SbmlReaction)
    (enzymeComp : List (List E)) : List String :=
  (duplicateReactions reactions enzymeComp).map (fun p => p.1.id) ++ [atpmId]

/-- The machinery-composition loop of `ModelBuilder.build_enzymes`: each gene
of a composition is looked up in `protein_reference` (`get(gene, None)`);
genes without an entry are skipped by `if ref:`, resolved genes contribute
one species reference.  (Stored references are (protein id, stoichiometry)
pairs, always truthy, so the `Option` captures the `if`.) -/
def machineryComposition (proteinReference : String → Option (String × Int))
    (composition : List String) : List (String × Int) :=
  composition.filterMap proteinReference

/-! ### Supporting lemmas on the transport resolver -/

theorem participantCpts_append :
    ∀ (a b : List String) (l : List String), participantCpts (a ++ b) = some l →
      ∃ la lb, participantCpts a = some la ∧ participantCpts b = some lb ∧ l = la ++ lb := by
  intro a
  induction a with
  | nil =>
    intro b l h
    exact ⟨[], l, rfl, h, rfl⟩
  | cons s rest ih =>
    intro b l h
    simp only [List.cons_append, participantCpts, List.append_eq] at h
    rcases hc : idCpt s with _ | c <;> rw [hc] at h
    · simp at h
    rcases hr : participantCpts (rest ++ b) with _ | cs <;> rw [hr] at h
    · simp at h
    simp only [Option.some.injEq] at h
    obtain ⟨la, lb, h1, h2, h3⟩ := ih b cs hr
    refine ⟨c :: la, lb, ?_, h2, by simp [← h, h3]⟩
    simp [participantCpts, hc, h1]

theorem participantCpts_mem_none {l : List String} {s : String}
    (hs : s ∈ l) (hnone : idCpt s = none) : participantCpts l = none := by
  induction l with
  | nil => simp at hs
  | cons t rest ih =>
    rcases List.mem_cons.mp hs with rfl | hs
    · simp [participantCpts, hnone]
    · simp only [participantCpts, ih hs]
      rcases idCpt t with _ | c <;> rfl

theorem participantCpts_isSome {l : List String}
    (h : ∀ s ∈ l, '_' ∈ s.data) : ∃ cs, participantCpts l = some cs := by
  induction l with
  | nil => exact ⟨[], rfl⟩
  | cons s rest ih =>
    have hs : idCpt s ≠ none := by
      rw [idCpt, Ne, rsplitU_snd_eq_none_iff]
      simp [h s (by simp)]
    obtain ⟨cs, hcs⟩ := ih (fun t ht => h t (by simp [ht]))
    rcases hc : idCpt s with _ | c
    · exact absurd hc hs
    · exact ⟨c :: cs, by simp [participantCpts, hc, hcs]⟩

theorem hasCytosolicProduct_of_all_ne (cytosolId : String) :
    ∀ (ps : List SpeciesRef) (lb : List String),
      participantCpts (ps.map (fun m => m.species)) = some lb →
      (∀ c ∈ lb, c ≠ cytosolId) → hasCytosolicProduct ps cytosolId = some false := by
  intro ps
  induction ps with
  | nil => intro lb _ _; rfl
  | cons p rest ih =>
    intro lb h hall
    simp only [List.map_cons, participantCpts] at h
    rcases hc : idCpt p.species with _ | c <;> rw [hc] at h
    · simp at h
    rcases hr : participantCpts (rest.map (fun m => m.species)) with _ | cs <;> rw [hr] at h
    · simp at h
    simp only [Option.some.injEq] at h
    subst h
    simp only [hasCytosolicProduct, hc]
    rw [if_neg (hall c (by simp))]
    exact ih cs hr (fun c' hc' => hall c' (by simp [hc']))

theorem hasCytosolicProduct_of_head_eq (cytosolId : String) (p : SpeciesRef)
    (rest : List SpeciesRef) (lb : List String)
    (h : participantCpts ((p :: rest).map (fun m => m.species)) = some lb)
    (hall : ∀ c ∈ lb, c = cytosolId) :
    hasCytosolicProduct (p :: rest) cytosolId = some true := by
  simp only [List.map_cons, participantCpts] at h
  rcases hc : idCpt p.species with _ | c <;> rw [hc] at h
  · simp at h
  rcases hr : participantCpts (rest.map (fun m => m.species)) with _ | cs <;> rw [hr] at h
  · simp at h
  simp only [Option.some.injEq] at h
  subst h
  simp only [hasCytosolicProduct, hc]
  rw [if_pos (hall c (by simp))]

theorem noncyt_of_all_eq (cytosolId : String) (ext : List String) :
    ∀ (ms : List SpeciesRef) (la : List String),
      participantCpts (ms.map (fun m => m.species)) = some la →
      (∀ c ∈ la, c = cytosolId) →
      noncytosolicExternalReactants cytosolId ext ms = some [] := by
  intro ms
  induction ms with
  | nil => intro la _ _; rfl
  | cons m rest ih =>
    intro la h hall
    simp only [List.map_cons, participantCpts] at h
    rcases hc : idCpt m.species with _ | c <;> rw [hc] at h
    · simp at h
    rcases hr : participantCpts (rest.map (fun m => m.species)) with _ | cs <;> rw [hr] at h
    · simp at h
    simp only [Option.some.injEq] at h
    subst h
    have hcpt : (rsplitU m.species).2 = some c := hc
    simp only [noncytosolicExternalReactants]
    rcases hsp : rsplitU m.species with ⟨stem, cpt⟩
    rw [hsp] at hcpt
    simp only at hcpt
    subst hcpt
    rw [ih cs hr (fun c' hc' => hall c' (by simp [hc']))]
    have : c = cytosolId := hall c (by simp)
    simp [this]

theorem noncyt_mem (cytosolId : String) (ext : List String) :
    ∀ (ms : List SpeciesRef) (l : List String),
      noncytosolicExternalReactants cytosolId ext ms = some l →
      ∀ x, x ∈ l ↔
        ∃ m ∈ ms, m.species = x ∧ (rsplitU x).2 ≠ some cytosolId ∧ (rsplitU x).1 ∈ ext := by
  intro ms
  induction ms with
  | nil =>
    intro l h x
    simp only [noncytosolicExternalReactants, Option.some.injEq] at h
    subst h
    simp
  | cons m rest ih =>
    intro l h x
    simp only [noncytosolicExternalReactants] at h
    rcases hsp : rsplitU m.species with ⟨stem, cpt⟩
    rw [hsp] at h
    rcases cpt with _ | c
    · simp at h
    rcases hr : noncytosolicExternalReactants cytosolId ext rest with _ | tail <;> rw [hr] at h
    · simp at h
    have h2 : (if c ≠ cytosolId ∧ stem ∈ ext then m.species :: tail else tail) = l :=
      Option.some.inj h
    subst h2
    constructor
    · intro hx
      by_cases hcond : c ≠ cytosolId ∧ stem ∈ ext
      · rw [if_pos hcond] at hx
        rcases List.mem_cons.mp hx with rfl | hx
        · refine ⟨m, by simp, rfl, ?_, ?_⟩
          · rw [hsp]; simpa using hcond.1
          · rw [hsp]; exact hcond.2
        · obtain ⟨m', hm', hsp', hc', he'⟩ := (ih tail hr x).mp hx
          exact ⟨m', by simp [hm'], hsp', hc', he'⟩
      · rw [if_neg hcond] at hx
        obtain ⟨m', hm', hsp', hc', he'⟩ := (ih tail hr x).mp hx
        exact ⟨m', by simp [hm'], hsp', hc', he'⟩
    · rintro ⟨m', hm', hspx, hcx, hex⟩
      rcases List.mem_cons.mp hm' with rfl | hm'
      · subst hspx
        have hcond : c ≠ cytosolId ∧ stem ∈ ext := by
          constructor
          · intro hc
            rw [hsp] at hcx
            exact hcx (by rw [hc])
          · rw [hsp] at hex
            exact hex
        rw [if_pos hcond]
        simp
      · have hx : x ∈ tail := (ih tail hr x).mpr ⟨m', hm', hspx, hcx, hex⟩
        split <;> simp [hx]

theorem noncyt_isSome (cytosolId : String) (ext : List String) :
    ∀ (ms : List SpeciesRef), (∀ m ∈ ms, '_' ∈ m.species.data) →
      ∃ l, noncytosolicExternalReactants cytosolId ext ms = some l := by
  intro ms
  induction ms with
  | nil => exact fun _ => ⟨[], rfl⟩
  | cons m rest ih =>
    intro h
    have hm : (rsplitU m.species).2 ≠ none := by
      rw [Ne, rsplitU_snd_eq_none_iff]
      simp [h m (by simp)]
    obtain ⟨tail, htail⟩ := ih (fun t ht => h t (by simp [ht]))
    rcases hsp : rsplitU m.species with ⟨stem, cpt⟩
    rcases cpt with _ | c
    · rw [hsp] at hm; simp at hm
    refine ⟨if c ≠ cytosolId ∧ stem ∈ ext then m.species :: tail else tail, ?_⟩
    simp [noncytosolicExternalReactants, hsp, htail]

theorem hasCytosolicProduct_isSome (cytosolId : String) :
    ∀ (ps : List SpeciesRef), (∀ p ∈ ps, '_' ∈ p.species.data) →
      ∃ b, hasCytosolicProduct ps cytosolId = some b := by
  intro ps
  induction ps with
  | nil => exact fun _ => ⟨false, rfl⟩
  | cons p rest ih =>
    intro h
    have hp : idCpt p.species ≠ none := by
      rw [idCpt, Ne, rsplitU_snd_eq_none_iff]
      simp [h p (by simp)]
    rcases hc : idCpt p.species with _ | c
    · exact absurd hc hp
    by_cases heq : c = cytosolId
    · exact ⟨true, by simp [hasCytosolicProduct, hc, heq]⟩
    · obtain ⟨b, hb⟩ := ih (fun t ht => h t (by simp [ht]))
      exact ⟨b, by simp [hasCytosolicProduct, hc, heq, hb]⟩

/-- A non-membrane reaction (all compartment suffixes computed and equal)
always resolves to an empty imported-metabolite list. -/
theorem importedMetabolites_of_nonmembrane (r : SbmlReaction) (cytosolId : String)
    (ext : List String) (h : hasMembraneEnzyme r = some false) :
    importedMetabolites r cytosolId ext = some [] := by
  unfold hasMembraneEnzyme at h
  rcases hall : participantCpts (participantSpecies r) with _ | cpts <;> rw [hall] at h
  · simp at h
  simp only [Option.map_some', Option.some.injEq] at h
  have hsplit : participantSpecies r =
      r.reactants.map (fun m => m.species) ++ r.products.map (fun m => m.species) := by
    simp [participantSpecies]
  rw [hsplit] at hall
  obtain ⟨la, lb, hla, hlb, hl⟩ := participantCpts_append _ _ _ hall
  match hcpts : cpts with
  | [] =>
    -- no participants at all: in particular no products
    have hlbnil : lb = [] := (List.append_eq_nil.mp hl.symm).2
    have hpnil : r.products = [] := by
      rw [hlbnil] at hlb
      rcases hps : r.products with _ | ⟨p, ps⟩
      · rfl
      · exfalso
        rw [hps] at hlb
        simp only [List.map_cons, participantCpts] at hlb
        rcases hc : idCpt p.species with _ | c <;> rw [hc] at hlb
        · exact Option.noConfusion hlb
        rcases hr2 : participantCpts (ps.map (fun m => m.species)) with _ | cs <;>
          rw [hr2] at hlb
        · exact Option.noConfusion hlb
        · exact List.noConfusion (Option.some.inj hlb)
    unfold importedMetabolites
    rw [hpnil]
    rfl
  | c0 :: restc =>
    have hany : (restc.any fun c => c != c0) = false := h
    have hrest : ∀ c ∈ restc, c = c0 := by
      intro c hc
      by_contra hne
      have hx : (restc.any fun c => c != c0) = true := by
        rw [List.any_eq_true]
        exact ⟨c, hc, by simpa using hne⟩
      rw [hx] at hany
      exact Bool.noConfusion hany
    have hallc : ∀ c ∈ c0 :: restc, c = c0 := by
      intro c hc
      rcases List.mem_cons.mp hc with rfl | hc
      · rfl
      · exact hrest c hc
    by_cases hc0 : c0 = cytosolId
    · -- every compartment is the cytosol: nothing qualifies as imported
      rcases hps : r.products with _ | ⟨p, ps⟩
      · unfold importedMetabolites
        rw [hps]
        rfl
      · have hcy : hasCytosolicProduct r.products cytosolId = some true := by
          rw [hps]
          apply hasCytosolicProduct_of_head_eq cytosolId p ps lb
          · rw [← hps]; exact hlb
          · intro c hcmem
            have : c = c0 := hallc c (by rw [hl]; exact List.mem_append_right la hcmem)
            rw [this, hc0]
        unfold importedMetabolites
        rw [hcy]
        apply noncyt_of_all_eq cytosolId ext r.reactants la hla
        intro c hcmem
        have : c = c0 := hallc c (by rw [hl]; exact List.mem_append_left lb hcmem)
        rw [this, hc0]
    · -- no product is in the cytosol
      have hcy : hasCytosolicProduct r.products cytosolId = some false := by
        apply hasCytosolicProduct_of_all_ne cytosolId r.products lb hlb
        intro c hcmem
        have : c = c0 := hallc c (by rw [hl]; exact List.mem_append_right la hcmem)
        rw [this]
        exact hc0
      unfold importedMetabolites
      rw [hcy]

/-! ### Supporting lemmas on expanded reaction ids -/

theorem cloneIdAt_inj (r : SbmlReaction) {i j : Nat}
    (h : cloneIdAt r (1 + i) = cloneIdAt r (1 + j)) : i = j := by
  unfold cloneIdAt at h
  by_cases hi : 1 + i > 1 <;> by_cases hj : 1 + j > 1
  · rw [if_pos hi, if_pos hj] at h
    have := (cloneId_append_inj h).2
    omega
  · rw [if_pos hi, if_neg hj] at h
    exact absurd h.symm (base_ne_cloneId r.id (1 + i))
  · rw [if_neg hi, if_pos hj] at h
    exact absurd h (base_ne_cloneId r.id (1 + j))
  · omega

theorem cloneLoop_ids_nodup {E : Type} (r : SbmlReaction) (comps : List E) :
    ((cloneLoop r 0 comps).map (fun p => p.1.id)).Nodup := by
  rw [cloneLoop_map_id]
  apply List.Nodup.map_on ?_ (List.nodup_range _)
  intro i _ j _ hij
  simp only [Nat.zero_add] at hij
  exact cloneIdAt_inj r hij

theorem cloneIdAt_cross {p q : SbmlReaction} {i j : Nat} (hne : p.id ≠ q.id)
    (h2a : ∀ j', p.id ≠ q.id ++ "_" ++ natRepr (j' + 2))
    (h2b : ∀ i', q.id ≠ p.id ++ "_" ++ natRepr (i' + 2)) :
    cloneIdAt p (1 + i) ≠ cloneIdAt q (1 + j) := by
  unfold cloneIdAt
  by_cases hi : 1 + i > 1 <;> by_cases hj : 1 + j > 1
  · rw [if_pos hi, if_pos hj]
    intro h
    exact hne (cloneId_append_inj h).1
  · rw [if_pos hi, if_neg hj]
    intro h
    have hsub : 1 + i = (i - 1) + 2 := by omega
    rw [hsub] at h
    exact h2b (i - 1) h.symm
  · rw [if_neg hi, if_pos hj]
    intro h
    have hsub : 1 + j = (j - 1) + 2 := by omega
    rw [hsub] at h
    exact h2a (j - 1) h
  · rw [if_neg hi, if_neg hj]
    exact hne

/-- Membership characterization of the `external_prefixes` set. -/
theorem mem_externalStemsOf (speciesList : List Species) (p : String) :
    p ∈ externalStemsOf speciesList ↔
      ∃ b ∈ speciesList, b.boundary = true ∧ (rsplitU b.id).1 = p := by
  simp only [externalStemsOf, externalMetabolites, List.map_map, List.mem_map,
    List.mem_filter, Function.comp_apply]
  constructor
  · rintro ⟨b, ⟨hb, hbd⟩, hstem⟩
    exact ⟨b, hb, hbd, hstem⟩
  · rintro ⟨b, hb, hbd, hstem⟩
    exact ⟨b, ⟨hb, hbd⟩, hstem⟩

/-! ## Claim theorems -/

/-- C1, counterexample: the normalizer neither distributes And over Or (an
`FbcOr` child of an `FbcAnd` raises instead of being expanded) nor
deduplicates identical clauses (an Or of two equal leaves keeps both
clauses), contradicting the claimed DNF normalization. -/
theorem C1_counterexample :
    readFbcAssociation (fun g => g)
      (.fbcAnd [.ref "g1", .fbcOr [.ref "g2", .ref "g3"]]) = none
    ∧ readFbcAssociation (fun g => g)
      (.fbcOr [.ref "g1", .ref "g1"]) = some [["g1"], ["g1"]] := by
  constructor <;> simp [readFbcAssociation, readClausesList, readComponents]

/-- C1 (amended): the parser performs no distribution, no flattening of
nested Or, and no deduplication — it accepts only trees already in
Or-of-Ands shape — but whenever it succeeds, the returned clause list,
re-interpreted as an Or-of-Ands over gene names, is logically equivalent to
the input expression under every truth assignment. -/
theorem C1_dnf_equivalence (names : String → String) (a : Association)
    (clauses : List (List String)) (h : readFbcAssociation names a = some clauses)
    (env : String → Bool) :
    evalClauses env clauses = evalAssoc (fun g => env (names g)) a :=
  readFbcAssociation_eval names env a clauses h

theorem C1_witness :
    readFbcAssociation (fun g => g) (.fbcOr [.fbcAnd [.ref "g1", .ref "g2"], .ref "g3"])
      = some [["g1", "g2"], ["g3"]]
    ∧ evalClauses (fun g => g == "g3") [["g1", "g2"], ["g3"]]
      = evalAssoc (fun g => (fun g => g == "g3") ((fun g : String => g) g))
          (.fbcOr [.fbcAnd [.ref "g1", .ref "g2"], .ref "g3"]) := by
  have hparse : readFbcAssociation (fun g : String => g)
      (.fbcOr [.fbcAnd [.ref "g1", .ref "g2"], .ref "g3"]) = some [["g1", "g2"], ["g3"]] := by
    simp [readFbcAssociation, readClausesList, readComponents]
  exact ⟨hparse, C1_dnf_equivalence (fun g => g) _ _ hparse (fun g => g == "g3")⟩

/-- C2, counterexample: the normalizer can hand the expander duplicate
clauses, in which case the k enzymes do not have pairwise distinct
compositions, contradicting the claimed distinctness. -/
theorem C2_counterexample :
    readFbcAssociation (fun g => g) (.fbcOr [.ref "g5", .ref "g5"]) = some [["g5"], ["g5"]]
    ∧ (cloneLoop (⟨"R1", true, [⟨"M_a_c", 1⟩], []⟩ : SbmlReaction) 0
        [["g5"], ["g5"]]).map (fun p => p.2) = [["g5"], ["g5"]]
    ∧ ¬ ((cloneLoop (⟨"R1", true, [⟨"M_a_c", 1⟩], []⟩ : SbmlReaction) 0
        [["g5"], ["g5"]]).map (fun p => p.2)).Nodup := by
  refine ⟨?_, rfl, by decide⟩
  simp [readFbcAssociation, readClausesList, readComponents]

/-- C2 (amended): a reaction with k clauses expands to exactly k
(reaction, enzyme) pairs, the i-th enzyme bound to the i-th clause
(duplicate clauses are not removed, so compositions are distinct only when
the clauses are); the first clone keeps the original id, the i-th clone for
i greater than one receives the suffix underscore + str(i); reversibility,
reactants and products are copied verbatim to every clone. -/
theorem C2_expansion_cardinality {E : Type} (r : SbmlReaction) (comps : List E) :
    (cloneLoop r 0 comps).length = comps.length
    ∧ ∀ i : Nat, (cloneLoop r 0 comps)[i]? =
        comps[i]?.map (fun e => ({ r with id := cloneIdAt r (i + 1) }, e)) := by
  refine ⟨cloneLoop_length r comps 0, fun i => ?_⟩
  rw [cloneLoop_getElem r comps 0 i]
  have h : 0 + 1 + i = i + 1 := by omega
  rw [h]

/-- C5 (code evaluated at the failing input): with no fbc plugin and a
reaction carrying a notes element, the note strategy does not yield data and
let the build proceed as claimed; it crashes with `NameError` because
`_gene_associations` reads the undefined name `notes` (the parameter is
`note`), an abort outside the documented error taxonomy. -/
theorem C5_note_strategy_crash :
    extractEnzymeComposition ⟨none, [⟨none, some ["GENE_ASSOCIATION: g1"]⟩]⟩
      = .error .noteNameError := rfl

/-- C6, counterexample: a tree built solely from Or and Leaf nodes — an Or
nested below the root Or — is rejected, contradicting the claim that every
And/Or/Leaf tree is accepted and that the error fires only for operators
outside that set. -/
theorem C6_counterexample :
    readFbcAssociation (fun g => g)
      (.fbcOr [.ref "g1", .fbcOr [.ref "g2", .ref "g3"]]) = none := by
  simp [readFbcAssociation, readClausesList, readComponents]

/-- C6 (amended): `_read_fbc_association` raises `UnsupportedAssociationShape`
iff the tree is not in Or-of-Ands shape, i.e. iff an Or node occurs anywhere
below the root; all trees whose Or is only at the root are accepted. -/
theorem C6_shape_acceptance (names : String → String) (a : Association) :
    (readFbcAssociation names a).isSome = orOfAnds a :=
  readFbcAssociation_isSome names a

/-- C7, counterexample: in the note path an empty gene-association text
yields zero clauses (`[]`), not one empty-set clause, contradicting the
claim that an empty expression never yields zero clauses. -/
theorem C7_counterexample :
    parseGeneAssociation ("GENE_ASSOCIATION:".data) = some (some []) := rfl

/-- C7 (amended): in the fbc path a reaction with no gene-product
association yields exactly one empty-set clause; in the note path an empty
association text yields zero clauses, and `_parse_note` additionally drops
such empty results, so the reaction would end up with no clause at all. -/
theorem C7_empty_association (names : String → String) :
    enzymeComposition names none = some [[]]
    ∧ parseNoteLoop ["GENE_ASSOCIATION:".data] = some [] :=
  ⟨rfl, rfl⟩

/-- C9: building the enzyme machinery composition is total — a gene id with
no entry in the gene-to-macromolecule reference is silently dropped (it
contributes nothing and raises nothing), and a composition element appears
in the output iff some gene of the composition resolves to it. -/
theorem C9_unresolved_gene_dropped (proteinReference : String → Option (String × Int))
    (composition : List String) :
    (∀ g rest, proteinReference g = none →
      machineryComposition proteinReference (g :: rest) =
        machineryComposition proteinReference rest)
    ∧ ∀ x, x ∈ machineryComposition proteinReference composition ↔
        ∃ g ∈ composition, proteinReference g = some x := by
  constructor
  · intro g rest hg
    simp [machineryComposition, List.filterMap_cons, hg]
  · intro x
    exact List.mem_filterMap

theorem C9_witness :
    machineryComposition (fun g => if g = "g1" then some ("P1", (1 : Int)) else none)
      ["g9", "g1"]
      = machineryComposition (fun g => if g = "g1" then some ("P1", (1 : Int)) else none)
      ["g1"]
    ∧ (("P1", (1 : Int)) ∈ machineryComposition
        (fun g => if g = "g1" then some ("P1", (1 : Int)) else none) ["g9", "g1"] ↔
        ∃ g ∈ ["g9", "g1"],
          (if g = "g1" then some ("P1", (1 : Int)) else none) = some ("P1", (1 : Int))) :=
  ⟨(C9_unresolved_gene_dropped (fun g => if g = "g1" then some ("P1", (1 : Int)) else none)
      ["g9", "g1"]).1 "g9" ["g1"] rfl,
   (C9_unresolved_gene_dropped (fun g => if g = "g1" then some ("P1", (1 : Int)) else none)
      ["g9", "g1"]).2 ("P1", (1 : Int))⟩

/-- C3: a compartment of the document is classified external iff it is in
the explicit override set or every species located in it participates in a
sink reaction (exactly one reactant and no products, or exactly one product
and no reactants); the override set is unioned with the topology-derived
set; and every species housed in an external compartment is marked boundary
in the output species list. -/
theorem C3_external_classification (model : SbmlModel) (override : List String)
    (c : String) (hc : c ∈ model.compartments) :
    (c ∈ externalCompartmentIds model (some override) ↔
      (c ∈ override ∨ ∀ m ∈ model.species, m.compartment = c →
        m.id ∈ sinkSpecies model.reactions))
    ∧ (∀ sid, sid ∈ sinkSpecies model.reactions ↔
        ∃ r ∈ model.reactions,
          (∃ x, r.reactants = [x] ∧ r.products = [] ∧ x.species = sid) ∨
          (∃ y, r.reactants = [] ∧ r.products = [y] ∧ y.species = sid))
    ∧ (∀ sp ∈ model.species,
        sp.compartment ∈ externalCompartmentIds model (some override) →
        (⟨sp.id, true⟩ : Species) ∈ initializeSpecies model (some override)) := by
  refine ⟨?_, fun sid => mem_sinkSpecies model.reactions sid, ?_⟩
  · unfold externalCompartmentIds
    simp only [Option.getD_some, List.mem_append, mem_identifyExternalCompartments]
    constructor
    · rintro (h | ⟨_, h⟩)
      · exact Or.inl h
      · exact Or.inr h
    · rintro (h | h)
      · exact Or.inl h
      · exact Or.inr ⟨hc, h⟩
  · intro sp hsp hext
    unfold initializeSpecies
    have : (⟨sp.id, sp.boundary_condition ||
        decide (sp.compartment ∈ externalCompartmentIds model (some override))⟩ : Species)
        ∈ model.species.map (fun s =>
          (⟨s.id, s.boundary_condition ||
            decide (s.compartment ∈ externalCompartmentIds model (some override))⟩ : Species)) :=
      List.mem_map_of_mem _ hsp
    simpa [hext] using this

/-- A two-compartment document used to instantiate C3: compartment `e`
contains only the sink species `M_a_e`, compartment `c` contains `M_b_c`,
which is no sink species. -/
def c3Model : SbmlModel :=
  ⟨["c", "e"],
   [⟨"M_a_e", "e", false⟩, ⟨"M_b_c", "c", false⟩],
   [⟨"EX_a", false, [⟨"M_a_e", 1⟩], []⟩,
    ⟨"R_ab", true, [⟨"M_a_e", 1⟩], [⟨"M_b_c", 1⟩]⟩]⟩

theorem C3_witness :
    ("e" ∈ externalCompartmentIds c3Model (some []) ↔
      ("e" ∈ ([] : List String) ∨ ∀ m ∈ c3Model.species, m.compartment = "e" →
        m.id ∈ sinkSpecies c3Model.reactions))
    ∧ (∀ sid, sid ∈ sinkSpecies c3Model.reactions ↔
        ∃ r ∈ c3Model.reactions,
          (∃ x, r.reactants = [x] ∧ r.products = [] ∧ x.species = sid) ∨
          (∃ y, r.reactants = [] ∧ r.products = [y] ∧ y.species = sid))
    ∧ (∀ sp ∈ c3Model.species,
        sp.compartment ∈ externalCompartmentIds c3Model (some []) →
        (⟨sp.id, true⟩ : Species) ∈ initializeSpecies c3Model (some [])) :=
  C3_external_classification c3Model [] "e" (by decide)

/-- C4: the imported-metabolite list is empty whenever the reaction has no
product whose compartment suffix is the cytosol id, and always empty for
non-membrane reactions; when a cytosolic product exists, a reactant is
listed iff its compartment suffix differs from the cytosol id and its
species-id stem (id with the suffix stripped at the last underscore) equals
the stem of some species classified boundary. -/
theorem C4_imported_metabolites (r : SbmlReaction) (cytosolId : String)
    (speciesList : List Species) :
    (hasCytosolicProduct r.products cytosolId = some false →
      importedMetabolites r cytosolId (externalStemsOf speciesList) = some [])
    ∧ (hasMembraneEnzyme r = some false →
      importedMetabolites r cytosolId (externalStemsOf speciesList) = some [])
    ∧ (∀ l, hasCytosolicProduct r.products cytosolId = some true →
        importedMetabolites r cytosolId (externalStemsOf speciesList) = some l →
        ∀ x, x ∈ l ↔ ∃ m ∈ r.reactants, m.species = x ∧
          (rsplitU x).2 ≠ some cytosolId ∧
          ∃ b ∈ speciesList, b.boundary = true ∧ (rsplitU b.id).1 = (rsplitU x).1) := by
  refine ⟨?_, ?_, ?_⟩
  · intro h
    unfold importedMetabolites
    rw [h]
  · intro h
    exact importedMetabolites_of_nonmembrane r cytosolId (externalStemsOf speciesList) h
  · intro l hcy himp x
    unfold importedMetabolites at himp
    rw [hcy] at himp
    rw [noncyt_mem cytosolId (externalStemsOf speciesList) r.reactants l himp x]
    constructor
    · rintro ⟨m, hm, hsp, hcpt, hstem⟩
      exact ⟨m, hm, hsp, hcpt, (mem_externalStemsOf speciesList _).mp hstem⟩
    · rintro ⟨m, hm, hsp, hcpt, hb⟩
      exact ⟨m, hm, hsp, hcpt, (mem_externalStemsOf speciesList _).mpr hb⟩

theorem C4_witness :
    (hasMembraneEnzyme (⟨"R2", false, [⟨"M_a_c", 1⟩], [⟨"M_b_c", 1⟩]⟩ : SbmlReaction)
        = some false
      ∧ importedMetabolites (⟨"R2", false, [⟨"M_a_c", 1⟩], [⟨"M_b_c", 1⟩]⟩ : SbmlReaction)
          "c" (externalStemsOf [⟨"M_glc_e", true⟩]) = some [])
    ∧ (importedMetabolites (⟨"R1", false, [⟨"M_glc_e", 1⟩], [⟨"M_glc_c", 1⟩]⟩ : SbmlReaction)
          "c" (externalStemsOf [⟨"M_glc_e", true⟩]) = some ["M_glc_e"]
      ∧ ("M_glc_e" ∈ (["M_glc_e"] : List String) ↔
          ∃ m ∈ (⟨"R1", false, [⟨"M_glc_e", 1⟩], [⟨"M_glc_c", 1⟩]⟩ : SbmlReaction).reactants,
            m.species = "M_glc_e" ∧ (rsplitU "M_glc_e").2 ≠ some "c" ∧
            ∃ b ∈ [(⟨"M_glc_e", true⟩ : Species)], b.boundary = true ∧
              (rsplitU b.id).1 = (rsplitU "M_glc_e").1)) := by
  refine ⟨⟨by decide, ?_⟩, ⟨by decide, ?_⟩⟩
  · exact (C4_imported_metabolites (⟨"R2", false, [⟨"M_a_c", 1⟩], [⟨"M_b_c", 1⟩]⟩ :
      SbmlReaction) "c" [⟨"M_glc_e", true⟩]).2.1 (by decide)
  · exact (C4_imported_metabolites (⟨"R1", false, [⟨"M_glc_e", 1⟩], [⟨"M_glc_c", 1⟩]⟩ :
      SbmlReaction) "c" [⟨"M_glc_e", true⟩]).2.2 ["M_glc_e"] (by decide) (by decide) "M_glc_e"

/-- C8, counterexample: the disambiguation suffix is not collision-free —
with SBML input reactions `R` (two enzymes) and `R_2` (one enzyme) the
expanded metabolism sub-model contains the id `R_2` twice. -/
theorem C8_counterexample :
    metabolismReactionIds "R_maintenance_atp"
      [⟨"R", false, [], []⟩, ⟨"R_2", false, [], []⟩]
      [[(), ()], [()]]
      = ["R", "R_2", "R_2", "R_maintenance_atp"]
    ∧ ¬ (metabolismReactionIds "R_maintenance_atp"
      [⟨"R", false, [], []⟩, ⟨"R_2", false, [], []⟩]
      [[(), ()], [()]]).Nodup := by
  exact ⟨rfl, by decide⟩

/-- C8 (amended): the ids of the expanded reactions plus the appended
maintenance-ATP reaction are pairwise distinct provided the input reaction
ids are distinct, no input id equals another input id extended with an
underscore and a decimal clone index (at least 2), and the maintenance id
does not occur among the expanded ids; within a single reaction's expansion
the generated ids are always pairwise distinct. -/
theorem C8_unique_ids {E : Type} (atpmId : String) (reactions : List SbmlReaction)
    (comps : List (List E))
    (h1 : ((reactions.zip comps).map (fun p => p.1.id)).Nodup)
    (h2 : ∀ p ∈ reactions.zip comps, ∀ q ∈ reactions.zip comps, ∀ j : Nat,
      p.1.id ≠ q.1.id ++ "_" ++ natRepr (j + 2))
    (h3 : atpmId ∉ (duplicateReactions reactions comps).map (fun p => p.1.id)) :
    (metabolismReactionIds atpmId reactions comps).Nodup := by
  unfold metabolismReactionIds
  rw [List.nodup_append]
  refine ⟨?_, by simp, ?_⟩
  · unfold duplicateReactions
    rw [List.map_flatMap, List.nodup_flatMap]
    constructor
    · intro p _
      exact cloneLoop_ids_nodup p.1 p.2
    · have hpw : (reactions.zip comps).Pairwise (fun p q => p.1.id ≠ q.1.id) :=
        List.pairwise_map.mp h1
      apply List.Pairwise.imp_of_mem ?_ hpw
      intro p q hp hq hne
      intro x hxp hxq
      have hxp' : x ∈ (cloneLoop p.1 0 p.2).map (fun c => c.1.id) := hxp
      have hxq' : x ∈ (cloneLoop q.1 0 q.2).map (fun c => c.1.id) := hxq
      rw [cloneLoop_map_id] at hxp' hxq'
      obtain ⟨i, _, rfl⟩ := List.mem_map.mp hxp'
      obtain ⟨j, _, hji⟩ := List.mem_map.mp hxq'
      simp only [Nat.zero_add] at hji
      exact cloneIdAt_cross hne
        (fun j' => h2 p hp q hq j') (fun i' => h2 q hq p hp i') hji.symm
  · intro x hx hxa
    rcases List.mem_singleton.mp hxa with rfl
    exact h3 hx

theorem C8_witness :
    (metabolismReactionIds "R_maintenance_atp"
      [(⟨"R", false, [], []⟩ : SbmlReaction)] [[(), ()]]).Nodup := by
  apply C8_unique_ids
  · decide
  · intro p hp q hq j
    simp only [List.zip_cons_cons, List.zip_nil_right, List.mem_singleton] at hp hq
    subst hp
    subst hq
    exact base_ne_cloneId "R" (j + 2)
  · decide

/-- C10: extracting the compartment suffix fails (with an uncaught indexing
error, not a taxonomy abort) exactly when the species id contains no
underscore; consequently membrane detection is poisoned by any underscore-
free participant, while under the precondition that every participant id
contains an underscore both membrane detection and transport resolution
are total. -/
theorem C10_suffix_totality (s : String) (r : SbmlReaction) (cytosolId : String)
    (ext : List String) :
    ((rsplitU s).2 = none ↔ '_' ∉ s.data)
    ∧ ((∃ x ∈ participantSpecies r, '_' ∉ x.data) → hasMembraneEnzyme r = none)
    ∧ ((∀ x ∈ participantSpecies r, '_' ∈ x.data) →
        (hasMembraneEnzyme r).isSome = true
        ∧ (importedMetabolites r cytosolId ext).isSome = true) := by
  refine ⟨rsplitU_snd_eq_none_iff s, ?_, ?_⟩
  · rintro ⟨x, hx, hnx⟩
    have hnone : idCpt x = none := by
      rw [idCpt, rsplitU_snd_eq_none_iff]
      exact hnx
    unfold hasMembraneEnzyme
    rw [participantCpts_mem_none hx hnone]
    rfl
  · intro hall
    obtain ⟨cs, hcs⟩ := participantCpts_isSome hall
    constructor
    · unfold hasMembraneEnzyme
      rw [hcs]
      rfl
    · have hprod : ∀ p ∈ r.products, '_' ∈ p.species.data := by
        intro p hp
        apply hall
        unfold participantSpecies
        exact List.mem_map_of_mem _ (List.mem_append_right r.reactants hp)
      have hreac : ∀ m ∈ r.reactants, '_' ∈ m.species.data := by
        intro m hm
        apply hall
        unfold participantSpecies
        exact List.mem_map_of_mem _ (List.mem_append_left r.products hm)
      obtain ⟨b, hb⟩ := hasCytosolicProduct_isSome cytosolId r.products hprod
      unfold importedMetabolites
      rw [hb]
      cases b
      · rfl
      · obtain ⟨l, hl⟩ := noncyt_isSome cytosolId ext r.reactants hreac
        rw [hl]
        rfl

theorem C10_witness :
    ((rsplitU "Mglc").2 = none ↔ '_' ∉ "Mglc".data)
    ∧ hasMembraneEnzyme (⟨"R", false, [⟨"Mglc", 1⟩], []⟩ : SbmlReaction) = none
    ∧ ((hasMembraneEnzyme (⟨"R1", false, [⟨"M_a_c", 1⟩], [⟨"M_a_e", 1⟩]⟩ :
          SbmlReaction)).isSome = true
      ∧ (importedMetabolites (⟨"R1", false, [⟨"M_a_c", 1⟩], [⟨"M_a_e", 1⟩]⟩ :
          SbmlReaction) "c" []).isSome = true) :=
  ⟨(C10_suffix_totality "Mglc" ⟨"R", false, [⟨"Mglc", 1⟩], []⟩ "c" []).1,
   (C10_suffix_totality "Mglc" ⟨"R", false, [⟨"Mglc", 1⟩], []⟩ "c" []).2.1
     ⟨"Mglc", by decide, by decide⟩,
   (C10_suffix_totality "Mglc" ⟨"R1", false, [⟨"M_a_c", 1⟩], [⟨"M_a_e", 1⟩]⟩ "c" []).2.2
     (by decide)⟩

end RBApy
